import Mathlib

/-!
Verification development for the proxy-tree core of `clashctl`
(`src/ui/components/proxy.rs`): the data model (`ProxyItem`, `ProxyGroup`,
`ProxyTree`), the incremental merge algorithm (`ProxyTree::merge`), the
snapshot conversion (`impl From<Proxies> for ProxyTree`), and the layout
algorithm (`ProxyGroup::get_widget`, `ProxyTreeWidget::render`).

Modelling conventions:
* machine integers (`usize`, `u64`) are `Nat`; the only arithmetic the code
  performs on them is `saturating_sub` (Nat truncated subtraction), `+ 1`,
  and division, none of which can overflow in the modelled ranges;
* Rust panics (`expect`, the `chunk_size != 0` assertion of `slice::chunks`)
  are modelled with `Except String`;
* the structural hash `get_hash` (a `DefaultHasher` over the `#[derive(Hash)]`
  instances, defined in the `components` module outside `src/`) is modelled
  collision-free: hash equality is structural equality over exactly the
  derived-`Hash` fields.  The `#[derive(Clone, Debug, Hash)]` on `ProxyGroup`
  and `ProxyItem` covers every field, `cursor` included;
* `std::collections::HashMap` is modelled as an association list with
  last-insert-wins content; its iteration order is unspecified in Rust, so
  the merge is parametrised by the order `σ` in which the leftover entries
  are drained, constrained to be a permutation of the leftover content
  (`validOrder`).
-/

namespace Clashctl

/-- Modelled from the spec (§6, style constants are out of scope): the subset
of `tui::style::Color` the proxy component mentions. -/
inductive Color
  | white
  | blue
  | lightBlue
  | green
  deriving DecidableEq, Repr

/-- Modelled from the spec (§6): a `tui::style::Style` restricted to what the
component uses — an optional foreground color and the BOLD modifier. -/
structure Style where
  fg : Option Color := none
  bold : Bool := false
  deriving DecidableEq, Repr

/-- `Style::fg` of tui: set the foreground color. -/
def Style.setFg (s : Style) (c : Color) : Style := { s with fg := some c }

/-- `Style::add_modifier(Modifier::BOLD)` of tui. -/
def Style.addBold (s : Style) : Style := { s with bold := true }

/-- Modelled from the spec (§6): a `tui::text::Span` — a piece of content with
a style.  `Span::width` is the display width of the content, modelled as its
length. -/
structure Span where
  content : String
  style : Style := {}
  deriving DecidableEq, Repr

/-- `Span::raw`. -/
def Span.raw (s : String) : Span := { content := s }

/-- `Span::styled`. -/
def Span.styled (s : String) (st : Style) : Span := { content := s, style := st }

/-- `Span::width` (unicode width modelled as string length; only ever used on
the indicator constant, which is a parameter anyway). -/
def Span.width (s : Span) : Nat := s.content.length

/-- Modelled from the spec (§3): the proxy-type enum of the `model` module
(not under `src/`).  The spec lists Selector, URLTest, Fallback, LoadBalance
as group-like and Direct, Reject and normal leaf kinds as terminal/normal. -/
inductive ProxyType
  | Selector
  | URLTest
  | Fallback
  | LoadBalance
  | Direct
  | Reject
  | Normal
  deriving DecidableEq, Repr

/-- Modelled from the spec (§3, glossary): `ProxyType::is_normal` — true
exactly for the terminal/normal (leaf) types, for which latency is
meaningful. -/
def ProxyType.is_normal : ProxyType → Bool
  | .Direct => true
  | .Reject => true
  | .Normal => true
  | _ => false

/-- Modelled from the spec (§6): the `Display` rendering of a proxy type used
for the type span (exact text immaterial to every claim). -/
def ProxyType.toStr : ProxyType → String
  | .Selector => "Selector"
  | .URLTest => "URLTest"
  | .Fallback => "Fallback"
  | .LoadBalance => "LoadBalance"
  | .Direct => "Direct"
  | .Reject => "Reject"
  | .Normal => "Normal"

/-- Modelled from the spec (§3): a latency sample of the `model` module,
`{delay: non-negative integer}` (`u64` in the source). -/
structure History where
  delay : Nat
  deriving DecidableEq, Repr

/-- `ProxyItem` (src/ui/components/proxy.rs, lines 205–211).  `PhantomData`
is dropped.  `#[derive(Hash)]` covers all four fields. -/
structure ProxyItem where
  name : String
  proxy_type : ProxyType
  history : Option History
  udp : Bool
  deriving DecidableEq, Repr

/-- `ProxyGroup` (src/ui/components/proxy.rs, lines 16–24).  `PhantomData`
is dropped.  `#[derive(Hash)]` covers all five fields, `cursor` included. -/
structure ProxyGroup where
  name : String
  proxy_type : ProxyType
  members : List ProxyItem
  current : Option Nat
  cursor : Nat
  deriving DecidableEq, Repr

/-- `ProxyTree` (src/ui/components/proxy.rs, lines 225–230). -/
structure ProxyTree where
  groups : List ProxyGroup
  expanded : Bool
  cursor : Nat
  deriving DecidableEq, Repr

/-- `ProxyGroupFocusStatus` (src/ui/components/proxy.rs, lines 26–30). -/
inductive ProxyGroupFocusStatus
  | None
  | Focused
  | Expanded
  deriving DecidableEq, Repr

/-- Modelled from the spec (§6, §9: styling constants are injected
configuration): the `Consts` table of the `components` module (not under
`src/`) plus `get_text_style`, as a parameter record. -/
structure Consts where
  FOCUSED_INDICATOR_SPAN : Span
  UNFOCUSED_INDICATOR_SPAN : Span
  EXPANDED_FOCUSED_INDICATOR_SPAN : Span
  EXPANDED_INDICATOR_SPAN : Span
  DELIMITER_SPAN : Span
  NOT_PROXY_SPAN : Span
  NO_LATENCY_SPAN : Span
  LOW_LATENCY_SPAN : Span
  MID_LATENCY_SPAN : Span
  HIGH_LATENCY_SPAN : Span
  NO_LATENCY_SIGN : String
  NO_LATENCY_STYLE : Style
  LOW_LATENCY_STYLE : Style
  MID_LATENCY_STYLE : Style
  HIGH_LATENCY_STYLE : Style
  PROXY_TYPE_STYLE : Style
  text_style : Style
  deriving DecidableEq, Repr

/-- `ProxyGroup::get_delay_style` (lines 173–180): the latency buckets. -/
def get_delay_style (C : Consts) (delay : Nat) : Style :=
  if delay = 0 then C.NO_LATENCY_STYLE
  else if delay ≤ 200 then C.LOW_LATENCY_STYLE
  else if delay ≤ 400 then C.MID_LATENCY_STYLE
  else C.HIGH_LATENCY_STYLE

/-- `ProxyGroup::get_delay_span` (lines 182–189): the summary glyph per
latency bucket. -/
def get_delay_span (C : Consts) (delay : Nat) : Span :=
  if delay = 0 then C.NO_LATENCY_SPAN
  else if delay ≤ 200 then C.LOW_LATENCY_SPAN
  else if delay ≤ 400 then C.MID_LATENCY_SPAN
  else C.HIGH_LATENCY_SPAN

/-- The `delay_span` closure of `ProxyGroup::get_widget` (lines 118–135):
the latency cell of one expanded member row. -/
def delay_span (C : Consts) (x : ProxyItem) : Span :=
  match x.history with
  | some h =>
      if h.delay > 0 then Span.styled (toString h.delay) (get_delay_style C h.delay)
      else Span.styled C.NO_LATENCY_SIGN C.NO_LATENCY_STYLE
  | none =>
      if ¬ x.proxy_type.is_normal then Span.raw ""
      else Span.styled C.NO_LATENCY_SIGN C.NO_LATENCY_STYLE

/-- `ProxyGroup::get_summary_widget` (lines 33–44): one glyph per member. -/
def get_summary_widget (C : Consts) (g : ProxyGroup) : List Span :=
  g.members.map fun x =>
    if x.proxy_type.is_normal then
      match x.history with
      | some h => get_delay_span C h.delay
      | none => C.NO_LATENCY_SPAN
    else C.NOT_PROXY_SPAN

/-- `slice::chunks` for a positive chunk size: splits into consecutive runs
of `n` elements, last one possibly shorter.  (The `n = 0` case panics in
Rust; `get_widget` guards it explicitly with an `Except.error`.) -/
def chunksOf (n : Nat) : List α → List (List α)
  | [] => []
  | a :: l =>
    if h : n = 0 then []
    else ((a :: l).take n) :: chunksOf n ((a :: l).drop n)
termination_by l => l.length
decreasing_by
  have hn : 0 < n := Nat.pos_of_ne_zero h
  simpa using Nat.sub_lt (Nat.succ_pos l.length) hn

/-- The tree-level scroll offset of `ProxyTreeWidget::render` (lines
324–328): skip the cursor in expanded mode, `saturating_sub 2` otherwise. -/
def treeSkip (expanded : Bool) (cursor : Nat) : Nat :=
  if expanded then cursor else cursor - 2

/-- The `skipped` offset of the expanded branch of `ProxyGroup::get_widget`
(line 92): `self.cursor.saturating_sub(4)`. -/
def memberSkip (cursor : Nat) : Nat := cursor - 4

/-- The header row pushed first by `ProxyGroup::get_widget` (lines 51–89):
indicator, bold white name, type, and count (or `cursor+1/count` when
expanded). -/
def groupHeader (C : Consts) (g : ProxyGroup) (status : ProxyGroupFocusStatus) :
    List Span :=
  let ind := if status = .Focused then C.FOCUSED_INDICATOR_SPAN
             else C.UNFOCUSED_INDICATOR_SPAN
  let nameSpan := Span.styled g.name ((Style.setFg {} Color.white).addBold)
  let typeSpan := Span.styled g.proxy_type.toStr C.PROXY_TYPE_STYLE
  let count := g.members.length
  let proxy_count := Span.styled
    (if status = .Expanded then toString (g.cursor + 1) ++ "/" ++ toString count
     else toString count)
    (Style.setFg {} Color.green)
  [ind, nameSpan, Span.raw " ", typeSpan, Span.raw " ", proxy_count]

/-- One member row of the expanded branch of `ProxyGroup::get_widget`
(lines 98–146); `i` is the enumerate index after `skip(skipped)`. -/
def expandedRow (C : Consts) (g : ProxyGroup) (skipped i : Nat) (x : ProxyItem) :
    List Span :=
  let ind := if g.cursor = i + skipped then C.EXPANDED_FOCUSED_INDICATOR_SPAN
             else C.EXPANDED_INDICATOR_SPAN
  let nameStyle :=
    if (g.current.map fun c => c == i + skipped).getD false then
      (Style.setFg {} Color.blue).addBold
    else if g.cursor = i + skipped then Style.setFg C.text_style Color.lightBlue
    else C.text_style
  [ind, C.DELIMITER_SPAN, Span.styled x.name nameStyle, C.DELIMITER_SPAN,
   Span.styled x.proxy_type.toStr C.PROXY_TYPE_STYLE, C.DELIMITER_SPAN,
   delay_span C x]

/-- The member rows of the expanded branch of `ProxyGroup::get_widget`
(lines 91–147): `members.iter().skip(cursor.saturating_sub(4)).enumerate()`. -/
def expandedRows (C : Consts) (g : ProxyGroup) : List (List Span) :=
  ((g.members.drop (memberSkip g.cursor)).enum).map fun p =>
    expandedRow C g (memberSkip g.cursor) p.1 p.2

/-- `ProxyGroup::get_widget` (lines 46–171).  The non-expanded branch calls
`slice::chunks` with size `(width − indicator_width − 2) / 2` (saturating);
`chunks` asserts its argument is non-zero, which is modelled as the
`Except.error`. -/
def get_widget (C : Consts) (g : ProxyGroup) (width : Nat)
    (status : ProxyGroupFocusStatus) : Except String (List (List Span)) :=
  if status = .Expanded then
    .ok (groupHeader C g status :: expandedRows C g)
  else
    let size := (width - (C.FOCUSED_INDICATOR_SPAN.width + 2)) / 2
    if size = 0 then .error "chunk size must be non-zero"
    else
      .ok (groupHeader C g status ::
        (chunksOf size (get_summary_widget C g)).map fun ch =>
          (if status = .Focused then C.FOCUSED_INDICATOR_SPAN
           else C.UNFOCUSED_INDICATOR_SPAN) :: ch)

/-- Effectful map over `Except`, mirroring a Rust loop that pushes results
and propagates the first panic. -/
def mapE (f : α → Except String β) : List α → Except String (List β)
  | [] => .ok []
  | a :: as =>
    match f a with
    | .error e => .error e
    | .ok b =>
      match mapE f as with
      | .error e => .error e
      | .ok bs => .ok (b :: bs)

/-- `ProxyTreeWidget::render` (lines 321–352), restricted to the row text it
hands to `Paragraph::new`: drop `treeSkip` groups, render each remaining
group with its focus status, concatenate, truncate to the viewport height.
The border block drawing carries no row content and is not modelled. -/
def renderText (C : Consts) (t : ProxyTree) (width height : Nat) :
    Except String (List (List Span)) :=
  let skip := treeSkip t.expanded t.cursor
  match mapE (fun p =>
      get_widget C p.2 width
        (match t.expanded, t.cursor == p.1 + skip with
         | true, true => .Expanded
         | false, true => .Focused
         | _, _ => .None))
      ((t.groups.drop skip).enum) with
  | .error e => .error e
  | .ok ws => .ok ((ws.foldl (· ++ ·) []).take height)

/-- `get_hash` of the `components` module, modelled collision-free: the
"hash" of a value is the value itself, so hash equality is structural
equality over exactly the `#[derive(Hash)]` fields (which include `cursor`
for `ProxyGroup`). -/
def get_hash (x : α) : α := x

/-- One insertion into the `HashMap` model: later inserts of the same key
overwrite earlier ones (`HashMap::from_iter` semantics). -/
def insertEntry (m : List (String × ProxyGroup)) (g : ProxyGroup) :
    List (String × ProxyGroup) :=
  (m.filter fun e => e.1 != g.name) ++ [(g.name, g)]

/-- The `HashMap` built by `ProxyTree::merge` (lines 242–243) from the
incoming tree's groups, keyed by name. -/
def buildMap (gs : List ProxyGroup) : List (String × ProxyGroup) :=
  gs.foldl insertEntry []

/-- `HashMap::get`-style lookup on the model. -/
def lookupEntry (m : List (String × ProxyGroup)) (k : String) :
    Option ProxyGroup :=
  (m.find? fun e => e.1 == k).map Prod.snd

/-- The removal part of `HashMap::remove`. -/
def eraseEntry (m : List (String × ProxyGroup)) (k : String) :
    List (String × ProxyGroup) :=
  m.filter fun e => e.1 != k

/-- The loop of `ProxyTree::merge` (lines 245–255): walk the live groups;
`map.remove(&group.name)`, keep the group if the hashes agree, otherwise
take the incoming content with the live `cursor`.  Returns the updated
groups and the drained map. -/
def mergeLoop : List ProxyGroup → List (String × ProxyGroup) →
    List ProxyGroup × List (String × ProxyGroup)
  | [], m => ([], m)
  | g :: rest, m =>
    match lookupEntry m g.name with
    | some other_group =>
      let m' := eraseEntry m g.name
      let g' := if get_hash g = get_hash other_group then g
                else { other_group with cursor := g.cursor }
      let r := mergeLoop rest m'
      (g' :: r.1, r.2)
    | none =>
      let r := mergeLoop rest m
      (g :: r.1, r.2)

/-- The entries left in the map after the merge loop — the incoming groups
matched to no live group (lines 257–259 drain these). -/
def leftoverMap (self other : ProxyTree) : List (String × ProxyGroup) :=
  (mergeLoop self.groups (buildMap other.groups)).2

/-- An admissible `HashMap::into_iter` drain order: Rust specifies only that
every remaining entry is yielded exactly once, i.e. any permutation of the
leftover content. -/
def validOrder (self other : ProxyTree) (σ : List ProxyGroup) : Prop :=
  σ.Perm ((leftoverMap self other).map Prod.snd)

/-- `ProxyTree::merge` (lines 237–260), parametrised by the drain order `σ`
of the leftover `HashMap` entries: hash short-circuit, update loop, append
the unmatched incoming groups. -/
def mergeWith (self other : ProxyTree) (σ : List ProxyGroup) : ProxyTree :=
  if get_hash self.groups = get_hash other.groups then self
  else { self with groups := (mergeLoop self.groups (buildMap other.groups)).1 ++ σ }

/-- What the merge loop turns one live group into, as a function of the
incoming map: the content of the same-named incoming entry (if any) with the
live cursor, unchanged when the hashes agree or no entry matches. -/
def mergedGroup (m : List (String × ProxyGroup)) (g : ProxyGroup) : ProxyGroup :=
  match lookupEntry m g.name with
  | some og => if get_hash g = get_hash og then g else { og with cursor := g.cursor }
  | none => g

/-- The entries whose key names no live group — the ones the merge loop never
removes from the map. -/
def keyAbsent (live : List ProxyGroup) (e : String × ProxyGroup) : Bool :=
  live.all fun x => e.1 != x.name

/-- The spec's notion (§4.2 step 1) of group content: name, type, members,
`current` — `cursor` excluded.  Used to compare the spec's claimed hash
domain against the derived one. -/
def groupContent (g : ProxyGroup) : String × ProxyType × List ProxyItem × Option Nat :=
  (g.name, g.proxy_type, g.members, g.current)

/-- The spec's content-comparison of two group lists (cursor-excluding). -/
def contentEq (a b : List ProxyGroup) : Prop :=
  a.map groupContent = b.map groupContent

/-- The last group with a given name in a list — what the last-insert-wins
`HashMap` retains for that key. -/
def findLast (gs : List ProxyGroup) (k : String) : Option ProxyGroup :=
  match gs with
  | [] => none
  | g :: rest =>
    match findLast rest k with
    | some r => some r
    | none => if g.name == k then some g else none

/-- Modelled from the spec (§4.1, §6): a raw snapshot group of the `model`
module (not under `src/`): declared type, the full ordered member-name list
`all`, and the optional active-member name `now`. -/
structure RawGroup where
  proxy_type : ProxyType
  all : List String
  now : Option String
  deriving DecidableEq, Repr

/-- Modelled from the spec (§4.1, §6): a raw proxy detail record of the
`model` module: type tag, ordered latency history (only the most recent
entry is consumed), UDP flag. -/
structure Proxy where
  proxy_type : ProxyType
  history : List History
  udp : Bool
  deriving DecidableEq, Repr

/-- Modelled from the spec (§4.1, §6): the raw snapshot — the ordered group
collection plus the flat name → record lookup. -/
structure Proxies where
  groups : List (String × RawGroup)
  details : List (String × Proxy)
  deriving DecidableEq, Repr

/-- `Proxies::get`: the name → detail-record lookup. -/
def Proxies.get (ps : Proxies) (name : String) : Option Proxy :=
  (ps.details.find? fun e => e.1 == name).map Prod.snd

/-- `Iterator::position`: index of the first element satisfying `p`. -/
def position (p : α → Bool) : List α → Option Nat
  | [] => none
  | a :: as => if p a then some 0 else (position p as).map (· + 1)

/-- The member construction of `impl From<(&str, &Proxy)> for ProxyItem`
(lines 213–223) combined with the lookup of lines 272–280: `expect`
modelled as an error. -/
def convertMember (ps : Proxies) (x : String) : Except String ProxyItem :=
  match ps.get x with
  | some proxy =>
    .ok { name := x, proxy_type := proxy.proxy_type,
          history := proxy.history.head?, udp := proxy.udp }
  | none => .error "Group member should be in all proxies"

/-- The `current`/`cursor` resolution of `impl From<Proxies> for ProxyTree`
(lines 283–299), after the member list has been built: resolve `now` to
`current` by `position`, initialise `cursor` to `current.unwrap_or_default()`. -/
def convertGroupWith (name : String) (pt : ProxyType) (now : Option String)
    (members : List ProxyItem) : Except String ProxyGroup :=
  match now with
  | none =>
    .ok { name := name, proxy_type := pt, members := members,
          current := none, cursor := 0 }
  | some n =>
    match position (fun item => item.name == n) members with
    | some i =>
      .ok { name := name, proxy_type := pt, members := members,
            current := some i, cursor := i }
    | none => .error "Group member should be in all proxies"

/-- One group of `impl From<Proxies> for ProxyTree` (lines 269–300): resolve
every member of `all`, then resolve `now`. -/
def convertGroup (ps : Proxies) (name : String) (rg : RawGroup) :
    Except String ProxyGroup :=
  match mapE (convertMember ps) rg.all with
  | .error e => .error e
  | .ok members => convertGroupWith name rg.proxy_type rg.now members

/-- The stable insertion step of the final by-name sort (line 301,
`sort_by_cached_key` is a stable sort, whose output is determined by the
comparator and stability). -/
def insertSorted (g : ProxyGroup) : List ProxyGroup → List ProxyGroup
  | [] => [g]
  | h :: t => if h.name ≤ g.name then h :: insertSorted g t else g :: h :: t

/-- The by-name stable sort of line 301. -/
def sortByName (gs : List ProxyGroup) : List ProxyGroup :=
  gs.foldr insertSorted []

/-- `impl From<Proxies> for ProxyTree` (lines 263–304): convert every group,
then sort by name; `expanded`/`cursor` default to `false`/`0`. -/
def fromProxies (ps : Proxies) : Except String ProxyTree :=
  match mapE (fun p => convertGroup ps p.1 p.2) ps.groups with
  | .error e => .error e
  | .ok gs => .ok { groups := sortByName gs, expanded := false, cursor := 0 }

/-- The spec's well-formedness condition on one raw group (§4.1 contract):
every member of `all` resolves, and a present `now` names a member. -/
def saneGroup (ps : Proxies) (rg : RawGroup) : Prop :=
  (∀ x ∈ rg.all, (ps.get x).isSome) ∧ (∀ n, rg.now = some n → n ∈ rg.all)

/-- The spec's well-formedness condition on a whole snapshot. -/
def saneProxies (ps : Proxies) : Prop :=
  ∀ p ∈ ps.groups, saneGroup ps p.2

/-- Modelled from the spec (§7, the poller is not under `src/`): a refresh
applies conversion and, only on success, merges; a fatal conversion error
leaves the live tree unchanged. -/
def refresh (live : ProxyTree) (ps : Proxies) (σ : List ProxyGroup) : ProxyTree :=
  match fromProxies ps with
  | .error _ => live
  | .ok t => mergeWith live t σ

/-! Concrete sample data used by witnesses and counterexamples. -/

/-- A concrete styling table (values arbitrary; every claim is parametric in
the table). -/
def C0 : Consts :=
  { FOCUSED_INDICATOR_SPAN := Span.raw ">> "
    UNFOCUSED_INDICATOR_SPAN := Span.raw "   "
    EXPANDED_FOCUSED_INDICATOR_SPAN := Span.raw "> "
    EXPANDED_INDICATOR_SPAN := Span.raw "  "
    DELIMITER_SPAN := Span.raw " "
    NOT_PROXY_SPAN := Span.raw "-"
    NO_LATENCY_SPAN := Span.raw "?"
    LOW_LATENCY_SPAN := Span.styled "o" { fg := some .green }
    MID_LATENCY_SPAN := Span.styled "o" { fg := some .white }
    HIGH_LATENCY_SPAN := Span.styled "o" { fg := some .blue }
    NO_LATENCY_SIGN := "-"
    NO_LATENCY_STYLE := {}
    LOW_LATENCY_STYLE := { fg := some .green }
    MID_LATENCY_STYLE := { fg := some .white }
    HIGH_LATENCY_STYLE := { fg := some .blue }
    PROXY_TYPE_STYLE := { fg := some .green, bold := false }
    text_style := { fg := some .white } }

def itA1 : ProxyItem := { name := "a1", proxy_type := .Normal, history := none, udp := false }

def itA2 : ProxyItem := { name := "a2", proxy_type := .Normal, history := some ⟨120⟩, udp := false }

def itA3 : ProxyItem := { name := "a3", proxy_type := .Direct, history := none, udp := true }

def itA4 : ProxyItem := { name := "a4", proxy_type := .Normal, history := some ⟨500⟩, udp := false }

/-- C1 data: live group "A" with 3 members and cursor 2. -/
def liveT1 : ProxyTree :=
  { groups := [{ name := "A", proxy_type := .Selector, members := [itA1, itA2, itA3],
                 current := none, cursor := 2 }],
    expanded := false, cursor := 0 }

/-- C1 data: incoming snapshot where "A" shrank to 1 member. -/
def incT1 : ProxyTree :=
  { groups := [{ name := "A", proxy_type := .Selector, members := [itA1],
                 current := none, cursor := 0 }],
    expanded := false, cursor := 0 }

/-- C2 data: live tree. -/
def selfT2 : ProxyTree :=
  { groups := [{ name := "A", proxy_type := .Selector, members := [itA1],
                 current := some 0, cursor := 0 }],
    expanded := false, cursor := 0 }

/-- C2 data: identical content to `selfT2`, but a different group cursor. -/
def otherT2 : ProxyTree :=
  { groups := [{ name := "A", proxy_type := .Selector, members := [itA1],
                 current := some 0, cursor := 1 }],
    expanded := false, cursor := 0 }

/-- C3 data: live group "A" at cursor 2. -/
def liveT3 : ProxyTree :=
  { groups := [{ name := "A", proxy_type := .Selector, members := [itA1, itA2, itA3],
                 current := some 0, cursor := 2 }],
    expanded := false, cursor := 0 }

/-- C3 data: snapshot where "A" gained a member at the end. -/
def incT3 : ProxyTree :=
  { groups := [{ name := "A", proxy_type := .Selector,
                 members := [itA1, itA2, itA3, itA4],
                 current := some 1, cursor := 0 }],
    expanded := false, cursor := 0 }

def gA : ProxyGroup :=
  { name := "A", proxy_type := .Selector, members := [itA1], current := none, cursor := 0 }

def gA2 : ProxyGroup :=
  { name := "A", proxy_type := .Selector, members := [itA1, itA2], current := none, cursor := 0 }

def gB1 : ProxyGroup :=
  { name := "B1", proxy_type := .Selector, members := [itA1], current := none, cursor := 0 }

def gB2 : ProxyGroup :=
  { name := "B2", proxy_type := .URLTest, members := [itA2], current := none, cursor := 0 }

/-- C4 data: live tree with the single group "A". -/
def liveC4 : ProxyTree := { groups := [gA], expanded := false, cursor := 0 }

/-- C4 data: incoming tree with changed "A" and the new groups "B1", "B2". -/
def incC4 : ProxyTree := { groups := [gA2, gB1, gB2], expanded := false, cursor := 0 }

def gD0 : ProxyGroup :=
  { name := "D", proxy_type := .Selector, members := [itA1], current := none, cursor := 7 }

def gD1 : ProxyGroup :=
  { name := "D", proxy_type := .Selector, members := [itA1], current := none, cursor := 0 }

def gD2 : ProxyGroup :=
  { name := "D", proxy_type := .Selector, members := [itA2], current := none, cursor := 5 }

/-- C10 data: live tree with one group "D" at cursor 7. -/
def liveC10 : ProxyTree := { groups := [gD0], expanded := false, cursor := 0 }

/-- C10 data: incoming tree with two groups both named "D". -/
def incC10 : ProxyTree := { groups := [gD1, gD2], expanded := false, cursor := 0 }

/-- C10 data: empty live tree. -/
def emptyLive : ProxyTree := { groups := [], expanded := false, cursor := 0 }

/-- C5 data: a tree with one collapsed group (content irrelevant). -/
def narrowT : ProxyTree :=
  { groups := [{ name := "A", proxy_type := .Selector, members := [itA1],
                 current := none, cursor := 0 }],
    expanded := false, cursor := 0 }

/-- C8 data: the end-to-end snapshot of spec §8. -/
def ps0 : Proxies :=
  { groups := [("Proxy", { proxy_type := .Selector, all := ["direct", "auto"],
                           now := some "auto" })],
    details := [("direct", { proxy_type := .Direct, history := [], udp := false }),
                ("auto", { proxy_type := .Normal, history := [⟨120⟩], udp := false })] }

/-- C6 data: a group-like member with no latency sample. -/
def itNested : ProxyItem :=
  { name := "nested", proxy_type := .Selector, history := none, udp := false }

/-- C8 data: the group `ps0` converts to. -/
def gP : ProxyGroup :=
  { name := "Proxy", proxy_type := .Selector,
    members := [{ name := "direct", proxy_type := .Direct,
                  history := none, udp := false },
                { name := "auto", proxy_type := .Normal,
                  history := some ⟨120⟩, udp := false }],
    current := some 1, cursor := 1 }

/-- C8 data: the tree `ps0` converts to. -/
def t0 : ProxyTree := { groups := [gP], expanded := false, cursor := 0 }

/-- C8 data: a snapshot whose group references an absent detail record. -/
def psBad : Proxies :=
  { groups := [("G", { proxy_type := .Selector, all := ["ghost"], now := none })],
    details := [] }

instance (a b : List ProxyGroup) : Decidable (contentEq a b) :=
  inferInstanceAs (Decidable (_ = _))

instance (self other : ProxyTree) (σ : List ProxyGroup) :
    Decidable (validOrder self other σ) :=
  decidable_of_iff _ List.isPerm_iff

instance (ps : Proxies) (rg : RawGroup) : Decidable (saneGroup ps rg) :=
  decidable_of_iff
    ((∀ x ∈ rg.all, (ps.get x).isSome) ∧ (∀ n ∈ rg.now.toList, n ∈ rg.all))
    (by obtain ⟨pt, all, now⟩ := rg; cases now <;> simp [saneGroup])

instance (ps : Proxies) : Decidable (saneProxies ps) :=
  decidable_of_iff (∀ p ∈ ps.groups, saneGroup ps p.2) Iff.rfl

/-! Lemmas about the association-list model of the merge `HashMap`. -/

theorem lookupEntry_cons (e : String × ProxyGroup) (m : List (String × ProxyGroup))
    (k : String) :
    lookupEntry (e :: m) k = if e.1 = k then some e.2 else lookupEntry m k := by
  by_cases h : e.1 = k <;> simp [lookupEntry, List.find?_cons, h]

theorem lookupEntry_eq_none_iff (m : List (String × ProxyGroup)) (k : String) :
    lookupEntry m k = none ↔ ∀ e ∈ m, e.1 ≠ k := by
  simp [lookupEntry, List.find?_eq_none]

theorem lookupEntry_insertEntry (m : List (String × ProxyGroup)) (g : ProxyGroup)
    (k : String) :
    lookupEntry (insertEntry m g) k = if k = g.name then some g else lookupEntry m k := by
  induction m with
  | nil =>
    by_cases h : k = g.name
    · simp [insertEntry, lookupEntry, List.find?_cons, h]
    · have h' : g.name ≠ k := Ne.symm h
      simp [insertEntry, lookupEntry, List.find?_cons, h, h']
  | cons e m ih =>
    by_cases he : e.1 = g.name
    · have hrw : insertEntry (e :: m) g = insertEntry m g := by
        simp [insertEntry, he]
      rw [hrw, ih, lookupEntry_cons]
      by_cases h : k = g.name
      · simp [h]
      · have hek : e.1 ≠ k := by rw [he]; exact Ne.symm h
        simp [h, hek]
    · have hrw : insertEntry (e :: m) g = e :: insertEntry m g := by
        simp [insertEntry, he]
      rw [hrw, lookupEntry_cons, ih, lookupEntry_cons]
      by_cases h : k = g.name
      · simp [h, he]
      · simp [h]

theorem lookupEntry_eraseEntry (m : List (String × ProxyGroup)) (k k' : String) :
    lookupEntry (eraseEntry m k) k' = if k' = k then none else lookupEntry m k' := by
  induction m with
  | nil => by_cases h : k' = k <;> simp [eraseEntry, lookupEntry, h]
  | cons e m ih =>
    by_cases he : e.1 = k
    · have hrw : eraseEntry (e :: m) k = eraseEntry m k := by simp [eraseEntry, he]
      rw [hrw, ih]
      by_cases h : k' = k
      · simp [h]
      · have hek : e.1 ≠ k' := by rw [he]; exact Ne.symm h
        simp [h, lookupEntry_cons, hek]
    · have hrw : eraseEntry (e :: m) k = e :: eraseEntry m k := by simp [eraseEntry, he]
      rw [hrw, lookupEntry_cons, ih, lookupEntry_cons]
      by_cases h : k' = k
      · simp [h, he]
      · simp [h]

theorem lookupEntry_foldl_insert (gs : List ProxyGroup) :
    ∀ (m : List (String × ProxyGroup)) (k : String),
    lookupEntry (gs.foldl insertEntry m) k =
      match findLast gs k with
      | some g => some g
      | none => lookupEntry m k := by
  induction gs with
  | nil => intro m k; simp [findLast]
  | cons g gs ih =>
    intro m k
    have hstep : (g :: gs).foldl insertEntry m = gs.foldl insertEntry (insertEntry m g) := rfl
    rw [hstep, ih]
    cases hf : findLast gs k with
    | some r => simp [findLast, hf]
    | none =>
      rw [lookupEntry_insertEntry]
      by_cases h : k = g.name
      · subst h
        simp [findLast, hf]
      · have h' : g.name ≠ k := Ne.symm h
        simp [findLast, hf, h, h']

theorem lookupEntry_buildMap (gs : List ProxyGroup) (k : String) :
    lookupEntry (buildMap gs) k = findLast gs k := by
  rw [buildMap, lookupEntry_foldl_insert]
  cases hf : findLast gs k <;> simp [lookupEntry]

theorem findLast_eq_none_iff (gs : List ProxyGroup) (k : String) :
    findLast gs k = none ↔ ∀ g ∈ gs, g.name ≠ k := by
  induction gs with
  | nil => simp [findLast]
  | cons g gs ih =>
    cases hf : findLast gs k with
    | some r =>
      simp only [findLast, hf]
      constructor
      · intro h; exact absurd h (by simp)
      · intro h
        exact absurd (ih.mpr fun x hx => h x (List.mem_cons_of_mem _ hx)) (by simp [hf])
    | none =>
      simp only [findLast, hf]
      by_cases h : g.name = k
      · simp only [h, beq_self_eq_true, if_true]
        constructor
        · intro hc; cases hc
        · intro hall; exact absurd h (hall g (by simp))
      · have h' : (g.name == k) = false := by simp [h]
        simp only [h', Bool.false_eq_true, if_false, true_iff]
        intro x hx
        rcases List.mem_cons.mp hx with rfl | hx'
        · exact h
        · exact (ih.mp hf) x hx'

theorem findLast_mem (gs : List ProxyGroup) (k : String) (g : ProxyGroup)
    (h : findLast gs k = some g) : g ∈ gs ∧ g.name = k := by
  induction gs with
  | nil => simp [findLast] at h
  | cons x gs ih =>
    rw [findLast] at h
    cases hf : findLast gs k with
    | some r =>
      rw [hf] at h
      obtain ⟨hg, hk⟩ := ih (hf.trans (by simpa using h))
      exact ⟨List.mem_cons_of_mem _ hg, hk⟩
    | none =>
      rw [hf] at h
      by_cases hx : x.name = k
      · simp [hx] at h
        exact ⟨by simp [h], h ▸ hx⟩
      · simp [hx] at h

theorem findLast_self_of_nodup (gs : List ProxyGroup)
    (hN : (gs.map fun g => g.name).Nodup) (g : ProxyGroup) (hg : g ∈ gs) :
    findLast gs g.name = some g := by
  induction gs with
  | nil => simp at hg
  | cons x gs ih =>
    rw [List.map_cons, List.nodup_cons] at hN
    rcases List.mem_cons.mp hg with h | h
    · subst h
      have : findLast gs g.name = none := by
        rw [findLast_eq_none_iff]
        intro y hy hname
        exact hN.1 (hname ▸ List.mem_map_of_mem (fun g => g.name) hy)
      simp [findLast, this]
    · rw [findLast, ih hN.2 h]

/-! Lemmas characterising the merge loop. -/

theorem mergeLoop_fst_cursor :
    ∀ (live : List ProxyGroup) (m : List (String × ProxyGroup)),
    ((mergeLoop live m).1).map ProxyGroup.cursor = live.map ProxyGroup.cursor := by
  intro live
  induction live with
  | nil => intro m; rfl
  | cons g rest ih =>
    intro m
    cases hl : lookupEntry m g.name with
    | some og =>
      have hstep : (mergeLoop (g :: rest) m).1 =
          (if get_hash g = get_hash og then g else { og with cursor := g.cursor }) ::
            (mergeLoop rest (eraseEntry m g.name)).1 := by
        simp [mergeLoop, hl]
      rw [hstep, List.map_cons, ih]
      congr 1
      by_cases hgo : get_hash g = get_hash og
      · rw [if_pos hgo]
      · rw [if_neg hgo]
    | none => simp [mergeLoop, hl, ih]

theorem mergeLoop_fst_length (live : List ProxyGroup) (m : List (String × ProxyGroup)) :
    (mergeLoop live m).1.length = live.length := by
  have h := congrArg List.length (mergeLoop_fst_cursor live m)
  simpa using h

theorem mergeLoop_snd :
    ∀ (live : List ProxyGroup) (m : List (String × ProxyGroup)),
    (mergeLoop live m).2 = m.filter (keyAbsent live) := by
  intro live
  induction live with
  | nil =>
    intro m
    have : ∀ e ∈ m, keyAbsent ([] : List ProxyGroup) e = true := by
      intro e _; simp [keyAbsent]
    simp [mergeLoop, List.filter_eq_self.mpr this]
  | cons g rest ih =>
    intro m
    cases hl : lookupEntry m g.name with
    | some og =>
      have hstep : (mergeLoop (g :: rest) m).2 = (mergeLoop rest (eraseEntry m g.name)).2 := by
        simp [mergeLoop, hl]
      rw [hstep, ih, eraseEntry, List.filter_filter]
      apply List.filter_congr
      intro e _
      simp [keyAbsent, Bool.and_comm]
    | none =>
      have hstep : (mergeLoop (g :: rest) m).2 = (mergeLoop rest m).2 := by
        simp [mergeLoop, hl]
      rw [hstep, ih]
      apply List.filter_congr
      intro e he
      have hne : e.1 ≠ g.name := (lookupEntry_eq_none_iff m g.name).mp hl e he
      simp [keyAbsent, hne]

theorem mergeLoop_fst (live : List ProxyGroup)
    (hN : (live.map fun g => g.name).Nodup) :
    ∀ (m : List (String × ProxyGroup)),
    (mergeLoop live m).1 = live.map (mergedGroup m) := by
  induction live with
  | nil => intro m; rfl
  | cons g rest ih =>
    intro m
    rw [List.map_cons, List.nodup_cons] at hN
    have hrest : ∀ r ∈ rest, r.name ≠ g.name := by
      intro r hr hcon
      exact hN.1 (hcon ▸ List.mem_map_of_mem (fun g => g.name) hr)
    cases hl : lookupEntry m g.name with
    | some og =>
      have hstep : (mergeLoop (g :: rest) m).1 =
          (if get_hash g = get_hash og then g else { og with cursor := g.cursor }) ::
            (mergeLoop rest (eraseEntry m g.name)).1 := by
        simp [mergeLoop, hl]
      rw [hstep, ih hN.2, List.map_cons]
      congr 1
      · simp [mergedGroup, hl]
      · apply List.map_congr_left
        intro r hr
        simp [mergedGroup, lookupEntry_eraseEntry, hrest r hr]
    | none =>
      have hstep : (mergeLoop (g :: rest) m).1 = g :: (mergeLoop rest m).1 := by
        simp [mergeLoop, hl]
      rw [hstep, ih hN.2, List.map_cons]
      congr 1
      simp [mergedGroup, hl]

/-! Lemmas about the content of `buildMap`. -/

theorem insertEntry_keys_nodup (m : List (String × ProxyGroup)) (g : ProxyGroup)
    (h : (m.map Prod.fst).Nodup) : ((insertEntry m g).map Prod.fst).Nodup := by
  rw [insertEntry, List.map_append, List.nodup_append]
  refine ⟨?_, by simp, ?_⟩
  · exact ((List.filter_sublist m).map Prod.fst).nodup h
  · intro a ha
    obtain ⟨e, he, rfl⟩ := List.mem_map.mp ha
    have := (List.mem_filter.mp he).2
    simp only [bne_iff_ne, ne_eq] at this
    simpa using this

theorem buildMap_keys_nodup (gs : List ProxyGroup) :
    ((buildMap gs).map Prod.fst).Nodup := by
  rw [buildMap]
  have haux : ∀ (l : List ProxyGroup) (m : List (String × ProxyGroup)),
      (m.map Prod.fst).Nodup → ((l.foldl insertEntry m).map Prod.fst).Nodup := by
    intro l
    induction l with
    | nil => intro m hm; exact hm
    | cons g l ih => intro m hm; exact ih _ (insertEntry_keys_nodup m g hm)
  exact haux gs [] (by simp)

theorem lookupEntry_of_mem (m : List (String × ProxyGroup))
    (hN : (m.map Prod.fst).Nodup) (e : String × ProxyGroup) (he : e ∈ m) :
    lookupEntry m e.1 = some e.2 := by
  induction m with
  | nil => simp at he
  | cons a m ih =>
    rw [List.map_cons, List.nodup_cons] at hN
    rcases List.mem_cons.mp he with rfl | he'
    · simp [lookupEntry_cons]
    · have hne : a.1 ≠ e.1 := by
        intro hcon
        exact hN.1 (hcon ▸ List.mem_map_of_mem Prod.fst he')
      rw [lookupEntry_cons, if_neg hne]
      exact ih hN.2 he'

theorem mem_buildMap_findLast (gs : List ProxyGroup) (e : String × ProxyGroup)
    (he : e ∈ buildMap gs) : findLast gs e.1 = some e.2 := by
  rw [← lookupEntry_buildMap]
  exact lookupEntry_of_mem _ (buildMap_keys_nodup gs) e he

theorem mem_buildMap_key_mem (gs : List ProxyGroup) (e : String × ProxyGroup)
    (he : e ∈ buildMap gs) : ∃ g ∈ gs, g.name = e.1 := by
  obtain ⟨hmem, hname⟩ := findLast_mem gs e.1 e.2 (mem_buildMap_findLast gs e he)
  exact ⟨e.2, hmem, hname⟩

/-! Top-level characterisation of `mergeWith`. -/

theorem mergeWith_groups_getElem? (self other : ProxyTree) (σ : List ProxyGroup)
    (hN : (self.groups.map fun g => g.name).Nodup) (i : Nat)
    (hi : i < self.groups.length) :
    (mergeWith self other σ).groups[i]? =
      some (mergedGroup (buildMap other.groups) (self.groups.get ⟨i, hi⟩)) := by
  rw [mergeWith]
  by_cases hh : get_hash self.groups = get_hash other.groups
  · rw [if_pos hh]
    have hgs : other.groups = self.groups := by
      have h2 := hh.symm
      simpa [get_hash] using h2
    have hmem : self.groups.get ⟨i, hi⟩ ∈ self.groups := List.get_mem self.groups i hi
    have hfl : findLast other.groups (self.groups.get ⟨i, hi⟩).name =
        some (self.groups.get ⟨i, hi⟩) := by
      rw [hgs]
      exact findLast_self_of_nodup self.groups hN _ hmem
    have hmg : mergedGroup (buildMap other.groups) (self.groups.get ⟨i, hi⟩) =
        self.groups.get ⟨i, hi⟩ := by
      simp only [mergedGroup, lookupEntry_buildMap, hfl]
      simp
    rw [hmg]
    simp [List.getElem?_eq_getElem hi, List.get_eq_getElem]
  · rw [if_neg hh]
    have hlen : i < ((mergeLoop self.groups (buildMap other.groups)).1).length := by
      rw [mergeLoop_fst_length]; exact hi
    rw [List.getElem?_append, if_pos hlen, mergeLoop_fst self.groups hN,
      List.getElem?_map, List.getElem?_eq_getElem hi]
    simp

theorem mergeWith_groups_drop (self other : ProxyTree) (σ : List ProxyGroup)
    (hv : validOrder self other σ) :
    ((mergeWith self other σ).groups.drop self.groups.length).Perm
      (((buildMap other.groups).filter (keyAbsent self.groups)).map Prod.snd) := by
  have hleft : (leftoverMap self other).map Prod.snd =
      ((buildMap other.groups).filter (keyAbsent self.groups)).map Prod.snd := by
    rw [leftoverMap, mergeLoop_snd]
  rw [mergeWith]
  by_cases hh : get_hash self.groups = get_hash other.groups
  · rw [if_pos hh]
    have hgs : other.groups = self.groups := by
      have h2 := hh.symm
      simpa [get_hash] using h2
    have hnil : (buildMap other.groups).filter (keyAbsent self.groups) = [] := by
      rw [List.filter_eq_nil_iff]
      intro e he
      obtain ⟨g, hg, hname⟩ := mem_buildMap_key_mem other.groups e he
      rw [hgs] at hg
      simp only [keyAbsent, List.all_eq_true, not_forall]
      exact ⟨g, hg, by simp [hname]⟩
    rw [List.drop_length, hnil]
    simp
  · rw [if_neg hh]
    have hlen : self.groups.length = ((mergeLoop self.groups (buildMap other.groups)).1).length :=
      (mergeLoop_fst_length _ _).symm
    rw [show ((mergeLoop self.groups (buildMap other.groups)).1 ++ σ).drop self.groups.length
          = σ by rw [hlen, List.drop_left]]
    rw [← hleft]
    exact hv

/-! Lemmas about the spec's cursor-excluding content comparison. -/

theorem contentEq_names (a b : List ProxyGroup) (h : contentEq a b) :
    (a.map fun g => g.name) = (b.map fun g => g.name) := by
  have h1 := congrArg (List.map Prod.fst) h
  simpa [List.map_map, Function.comp, groupContent] using h1

theorem groupContent_cursor_ext (a b : ProxyGroup)
    (h : groupContent a = groupContent b) : { a with cursor := b.cursor } = b := by
  obtain ⟨n, t, ms, c, cur⟩ := a
  obtain ⟨n', t', ms', c', cur'⟩ := b
  simp only [groupContent, Prod.mk.injEq] at h
  obtain ⟨h1, h2, h3, h4⟩ := h
  subst h1; subst h2; subst h3; subst h4
  rfl

theorem contentEq_findLast (a : List ProxyGroup) :
    ∀ (b : List ProxyGroup), contentEq a b → ∀ (k : String),
    Option.map groupContent (findLast a k) = Option.map groupContent (findLast b k) := by
  induction a with
  | nil =>
    intro b h k
    have hb : b = [] := by
      rw [contentEq] at h
      simpa using (List.map_eq_nil_iff.mp h.symm)
    subst hb; rfl
  | cons x as ih =>
    intro b h k
    cases b with
    | nil => rw [contentEq] at h; simp at h
    | cons y bs =>
      rw [contentEq, List.map_cons, List.map_cons, List.cons.injEq] at h
      obtain ⟨hxy, htl⟩ := h
      have hname : x.name = y.name := congrArg Prod.fst hxy
      have htail := ih bs htl k
      rw [findLast, findLast]
      cases hfa : findLast as k with
      | some ra =>
        rw [hfa] at htail
        cases hfb : findLast bs k with
        | some rb => rw [hfb] at htail; simpa using htail
        | none => rw [hfb] at htail; simp at htail
      | none =>
        rw [hfa] at htail
        cases hfb : findLast bs k with
        | some rb => rw [hfb] at htail; simp at htail
        | none =>
          by_cases hk : x.name = k
          · simp [hk, hname ▸ hk, hxy]
          · have hk' : y.name ≠ k := hname ▸ hk
            simp [hk, hk']

/-! Lemmas about `mapE`, `position` and the snapshot conversion. -/

theorem mapE_ok_iff (f : α → Except String β) (l : List α) :
    (∃ bs, mapE f l = .ok bs) ↔ ∀ a ∈ l, ∃ b, f a = .ok b := by
  induction l with
  | nil => simp [mapE]
  | cons a as ih =>
    constructor
    · rintro ⟨bs, hbs⟩ x hx
      rw [mapE] at hbs
      cases hfa : f a with
      | error e => rw [hfa] at hbs; cases hbs
      | ok b =>
        rw [hfa] at hbs
        cases hrest : mapE f as with
        | error e => rw [hrest] at hbs; cases hbs
        | ok bs' =>
          rcases List.mem_cons.mp hx with rfl | hx'
          · exact ⟨b, hfa⟩
          · exact (ih.mp ⟨bs', hrest⟩) x hx'
    · intro hall
      obtain ⟨b, hb⟩ := hall a (by simp)
      obtain ⟨bs, hbs⟩ := ih.mpr fun x hx => hall x (List.mem_cons_of_mem _ hx)
      exact ⟨b :: bs, by rw [mapE, hb, hbs]⟩

theorem mapE_error_exists (f : α → Except String β) (l : List α) (e : String)
    (h : mapE f l = .error e) : ∃ a ∈ l, f a = .error e := by
  induction l with
  | nil => cases h
  | cons a as ih =>
    rw [mapE] at h
    cases hfa : f a with
    | error e' =>
      rw [hfa] at h
      cases h
      exact ⟨a, by simp, hfa⟩
    | ok b =>
      rw [hfa] at h
      cases hrest : mapE f as with
      | error e' =>
        rw [hrest] at h
        cases h
        obtain ⟨x, hx, hxe⟩ := ih hrest
        exact ⟨x, List.mem_cons_of_mem _ hx, hxe⟩
      | ok bs => rw [hrest] at h; cases h

theorem mapE_ok_mem (f : α → Except String β) :
    ∀ (l : List α) (bs : List β), mapE f l = .ok bs → ∀ b ∈ bs, ∃ a ∈ l, f a = .ok b := by
  intro l
  induction l with
  | nil =>
    intro bs h b hb
    cases h
    simp at hb
  | cons a as ih =>
    intro bs h b hb
    rw [mapE] at h
    cases hfa : f a with
    | error e => rw [hfa] at h; cases h
    | ok b' =>
      rw [hfa] at h
      cases hrest : mapE f as with
      | error e => rw [hrest] at h; cases h
      | ok bs' =>
        rw [hrest] at h
        cases h
        rcases List.mem_cons.mp hb with rfl | hb'
        · exact ⟨a, by simp, hfa⟩
        · obtain ⟨x, hx, hxb⟩ := ih bs' hrest b hb'
          exact ⟨x, List.mem_cons_of_mem _ hx, hxb⟩

theorem mapE_convertMember_names (ps : Proxies) :
    ∀ (xs : List String) (ms : List ProxyItem),
    mapE (convertMember ps) xs = .ok ms → (ms.map fun x => x.name) = xs := by
  intro xs
  induction xs with
  | nil => intro ms h; cases h; rfl
  | cons x xs ih =>
    intro ms h
    rw [mapE] at h
    cases hfa : convertMember ps x with
    | error e => rw [hfa] at h; cases h
    | ok b =>
      rw [hfa] at h
      cases hrest : mapE (convertMember ps) xs with
      | error e => rw [hrest] at h; cases h
      | ok ms' =>
        rw [hrest] at h
        cases h
        have hname : b.name = x := by
          rw [convertMember] at hfa
          cases hget : ps.get x with
          | some p => rw [hget] at hfa; cases hfa; rfl
          | none => rw [hget] at hfa; cases hfa
        rw [List.map_cons, hname, ih ms' hrest]

theorem convertMember_ok_iff (ps : Proxies) (x : String) :
    (∃ b, convertMember ps x = .ok b) ↔ (ps.get x).isSome := by
  unfold convertMember
  cases hget : ps.get x with
  | some p =>
    refine iff_of_true ⟨_, rfl⟩ ?_
    rfl
  | none =>
    refine iff_of_false ?_ ?_
    · rintro ⟨b, hb⟩; cases hb
    · intro hcon; cases hcon

theorem position_eq_none_iff (p : α → Bool) :
    ∀ (l : List α), position p l = none ↔ ∀ a ∈ l, p a = false := by
  intro l
  induction l with
  | nil => simp [position]
  | cons a as ih =>
    by_cases hpa : p a = true
    · simp [position, hpa]
    · have hpa' : p a = false := by simpa using hpa
      simp [position, hpa', ih]

theorem position_eq_some (p : α → Bool) :
    ∀ (l : List α) (i : Nat), position p l = some i →
    ∃ hi : i < l.length, p (l.get ⟨i, hi⟩) = true := by
  intro l
  induction l with
  | nil => intro i h; cases h
  | cons a as ih =>
    intro i h
    by_cases hpa : p a = true
    · rw [position, if_pos hpa] at h
      cases h
      exact ⟨Nat.succ_pos _, hpa⟩
    · rw [position, if_neg hpa] at h
      cases hrec : position p as with
      | none => rw [hrec] at h; cases h
      | some j =>
        rw [hrec] at h
        simp at h
        obtain ⟨hj, hpj⟩ := ih j hrec
        subst h
        exact ⟨Nat.succ_lt_succ hj, hpj⟩

theorem insertSorted_perm (g : ProxyGroup) :
    ∀ (l : List ProxyGroup), (insertSorted g l).Perm (g :: l) := by
  intro l
  induction l with
  | nil => simp [insertSorted]
  | cons h t ih =>
    rw [insertSorted]
    by_cases hle : h.name ≤ g.name
    · rw [if_pos hle]
      exact (ih.cons h).trans (List.Perm.swap g h t)
    · rw [if_neg hle]

theorem sortByName_perm (gs : List ProxyGroup) : (sortByName gs).Perm gs := by
  induction gs with
  | nil => simp [sortByName]
  | cons g gs ih =>
    have : sortByName (g :: gs) = insertSorted g (sortByName gs) := rfl
    rw [this]
    exact (insertSorted_perm g (sortByName gs)).trans (ih.cons g)

theorem convertGroupWith_none (name : String) (pt : ProxyType)
    (members : List ProxyItem) :
    convertGroupWith name pt none members =
      .ok { name := name, proxy_type := pt, members := members,
            current := none, cursor := 0 } := rfl

theorem convertGroupWith_some (name : String) (pt : ProxyType) (n : String)
    (members : List ProxyItem) :
    convertGroupWith name pt (some n) members =
      match position (fun item => item.name == n) members with
      | some i =>
        .ok { name := name, proxy_type := pt, members := members,
              current := some i, cursor := i }
      | none => .error "Group member should be in all proxies" := rfl

theorem convertGroupWith_ok_iff (name : String) (pt : ProxyType)
    (now : Option String) (members : List ProxyItem) :
    (∃ g, convertGroupWith name pt now members = .ok g) ↔
      (∀ n, now = some n → n ∈ members.map fun x => x.name) := by
  cases now with
  | none =>
    rw [convertGroupWith_none]
    refine iff_of_true ⟨_, rfl⟩ ?_
    intro n hcon
    cases hcon
  | some n =>
    rw [convertGroupWith_some]
    cases hp : position (fun item => item.name == n) members with
    | some i =>
      obtain ⟨hi, hname⟩ := position_eq_some _ members i hp
      refine iff_of_true ⟨_, rfl⟩ ?_
      intro n' hn'
      have hnn : n = n' := by injection hn'
      subst hnn
      have hgn : (members.get ⟨i, hi⟩).name = n := by simpa using hname
      exact hgn ▸ List.mem_map_of_mem (fun x => x.name) (List.get_mem members i hi)
    | none =>
      refine iff_of_false ?_ ?_
      · rintro ⟨g, hg⟩; cases hg
      · intro hs
        obtain ⟨item, hitem, hiname⟩ := List.mem_map.mp (hs n rfl)
        have hfalse := (position_eq_none_iff _ members).mp hp item hitem
        rw [hiname] at hfalse
        simp at hfalse

theorem convertGroup_ok_iff (ps : Proxies) (name : String) (rg : RawGroup) :
    (∃ g, convertGroup ps name rg = .ok g) ↔ saneGroup ps rg := by
  unfold convertGroup
  cases hm : mapE (convertMember ps) rg.all with
  | error e =>
    obtain ⟨x, hx, hxe⟩ := mapE_error_exists _ _ _ hm
    have hnone : ps.get x = none := by
      unfold convertMember at hxe
      cases hget : ps.get x with
      | some p => rw [hget] at hxe; cases hxe
      | none => rfl
    refine iff_of_false ?_ ?_
    · rintro ⟨g, hg⟩; cases hg
    · intro hs
      have hsome := hs.1 x hx
      rw [hnone] at hsome
      cases hsome
  | ok members =>
    have hred : (match (Except.ok members : Except String (List ProxyItem)) with
        | Except.error e => (Except.error e : Except String ProxyGroup)
        | Except.ok ms => convertGroupWith name rg.proxy_type rg.now ms) =
        convertGroupWith name rg.proxy_type rg.now members := rfl
    rw [hred, convertGroupWith_ok_iff,
      mapE_convertMember_names ps rg.all members hm]
    have hall : ∀ x ∈ rg.all, (ps.get x).isSome := by
      intro x hx
      exact (convertMember_ok_iff ps x).mp ((mapE_ok_iff _ _).mp ⟨members, hm⟩ x hx)
    unfold saneGroup
    constructor
    · intro h2; exact ⟨hall, h2⟩
    · intro h2; exact h2.2

theorem convertGroup_fields (ps : Proxies) (name : String) (rg : RawGroup)
    (g : ProxyGroup) (h : convertGroup ps name rg = .ok g) :
    g.name = name ∧ g.cursor = g.current.getD 0 ∧
    (rg.now = none → g.current = none) ∧
    (∀ n, rg.now = some n → ∃ i, g.current = some i ∧
        ∃ hi : i < g.members.length, (g.members.get ⟨i, hi⟩).name = n) := by
  unfold convertGroup at h
  cases hm : mapE (convertMember ps) rg.all with
  | error e => rw [hm] at h; cases h
  | ok members =>
    rw [hm] at h
    have h2 : convertGroupWith name rg.proxy_type rg.now members = Except.ok g := h
    cases hn : rg.now with
    | none =>
      rw [hn, convertGroupWith_none] at h2
      cases h2
      exact ⟨rfl, rfl, fun _ => rfl, fun n hcon => by cases hcon⟩
    | some n =>
      rw [hn, convertGroupWith_some] at h2
      cases hp : position (fun item => item.name == n) members with
      | none => rw [hp] at h2; cases h2
      | some i =>
        rw [hp] at h2
        cases h2
        obtain ⟨hi, hname⟩ := position_eq_some _ members i hp
        refine ⟨rfl, rfl, ?_, ?_⟩
        · intro hcon; cases hcon
        · intro n' hn'
          have hnn : n = n' := by injection hn'
          subst hnn
          exact ⟨i, rfl, hi, by simpa using hname⟩

theorem fromProxies_ok_iff (ps : Proxies) :
    (∃ t, fromProxies ps = .ok t) ↔ saneProxies ps := by
  unfold fromProxies
  cases hm : mapE (fun p => convertGroup ps p.1 p.2) ps.groups with
  | error e =>
    constructor
    · rintro ⟨t, ht⟩
      have ht2 : (Except.error e : Except String ProxyTree) = Except.ok t := ht
      cases ht2
    · intro hs
      obtain ⟨p, hp, hpe⟩ := mapE_error_exists _ _ _ hm
      obtain ⟨g, hg⟩ := (convertGroup_ok_iff ps p.1 p.2).mpr (hs p hp)
      rw [hg] at hpe
      cases hpe
  | ok gs =>
    constructor
    · intro _ p hp
      obtain ⟨g, hg⟩ := (mapE_ok_iff _ _).mp ⟨gs, hm⟩ p hp
      exact (convertGroup_ok_iff ps p.1 p.2).mp ⟨g, hg⟩
    · intro _
      exact ⟨{ groups := sortByName gs, expanded := false, cursor := 0 }, rfl⟩

theorem fromProxies_mem (ps : Proxies) (t : ProxyTree) (h : fromProxies ps = .ok t)
    (g : ProxyGroup) (hg : g ∈ t.groups) :
    ∃ p ∈ ps.groups, convertGroup ps p.1 p.2 = .ok g := by
  unfold fromProxies at h
  cases hm : mapE (fun p => convertGroup ps p.1 p.2) ps.groups with
  | error e =>
    rw [hm] at h
    have h2 : (Except.error e : Except String ProxyTree) = Except.ok t := h
    cases h2
  | ok gs =>
    rw [hm] at h
    have h2 : (Except.ok { groups := sortByName gs, expanded := false, cursor := 0 } :
        Except String ProxyTree) = Except.ok t := h
    cases h2
    have hmem : g ∈ sortByName gs := hg
    have hmem2 : g ∈ gs := (sortByName_perm gs).mem_iff.mp hmem
    exact mapE_ok_mem _ ps.groups gs hm g hmem2

theorem buildMap_filter_nil_of_sub (self other : ProxyTree)
    (hsub : ∀ g ∈ other.groups, g.name ∈ self.groups.map fun x => x.name) :
    (buildMap other.groups).filter (keyAbsent self.groups) = [] := by
  rw [List.filter_eq_nil_iff]
  intro e he
  obtain ⟨g, hg, hgname⟩ := mem_buildMap_key_mem other.groups e he
  obtain ⟨x, hx, hxname⟩ := List.mem_map.mp (hsub g hg)
  simp only [keyAbsent, List.all_eq_true, not_forall]
  refine ⟨x, hx, ?_⟩
  rw [← hgname, ← hxname]
  simp

theorem mergeWith_groups_length (self other : ProxyTree) (σ : List ProxyGroup)
    (hv : validOrder self other σ) :
    (mergeWith self other σ).groups.length =
      self.groups.length +
        ((buildMap other.groups).filter (keyAbsent self.groups)).length := by
  have hσ : σ.length = ((buildMap other.groups).filter (keyAbsent self.groups)).length := by
    have h1 := hv.length_eq
    rw [leftoverMap, mergeLoop_snd] at h1
    simpa using h1
  rw [mergeWith]
  by_cases hh : get_hash self.groups = get_hash other.groups
  · rw [if_pos hh]
    have hgs : other.groups = self.groups := by
      have h2 := hh.symm
      simpa [get_hash] using h2
    have hnil := buildMap_filter_nil_of_sub self other (by
      intro g hg
      rw [hgs] at hg
      exact List.mem_map_of_mem _ hg)
    rw [hnil]
    simp
  · rw [if_neg hh]
    simp only [List.length_append, mergeLoop_fst_length, hσ]

/-! ## Claim theorems -/

/-- C1 counterexample: merging a snapshot in which group "A" shrank from 3
members (prior cursor 2) to 1 member leaves the cursor at 2 — outside
`[0, members.len()-1]`.  `ProxyTree::merge` performs no clamping, contrary to
the claim. -/
theorem c1_counterexample :
    ((mergeWith liveT1 incT1 []).groups.map fun g => (g.cursor, g.members.length))
        = [(2, 1)] ∧
      ((mergeWith liveT1 incT1 []).groups.all fun g =>
        decide (g.cursor + 1 ≤ g.members.length)) = false := by
  constructor
  · decide
  · decide

/-- C1 (amended): after `ProxyTree::merge` every pre-existing group keeps
exactly its prior cursor value, unclamped — the merge never touches cursors,
so a cursor may exceed the new member range; the render path tolerates this
with saturating arithmetic. -/
theorem c1_cursor_preserved (self other : ProxyTree) (σ : List ProxyGroup)
    (i : Nat) (hi : i < self.groups.length) :
    ((mergeWith self other σ).groups[i]?).map ProxyGroup.cursor =
      some (self.groups.get ⟨i, hi⟩).cursor := by
  rw [mergeWith]
  by_cases hh : get_hash self.groups = get_hash other.groups
  · rw [if_pos hh]
    simp [List.getElem?_eq_getElem hi, List.get_eq_getElem]
  · rw [if_neg hh]
    have hlen : i < ((mergeLoop self.groups (buildMap other.groups)).1).length := by
      rw [mergeLoop_fst_length]; exact hi
    rw [List.getElem?_append, if_pos hlen]
    have hmap := congrArg (fun l => l[i]?)
      (mergeLoop_fst_cursor self.groups (buildMap other.groups))
    simp only [List.getElem?_map] at hmap
    rw [hmap, List.getElem?_eq_getElem hi]
    simp [List.get_eq_getElem]

/-- C1 witness: the counterexample tree evaluated through the amended
theorem — the merged group's cursor is the prior cursor 2. -/
theorem c1_witness :
    ((mergeWith liveT1 incT1 []).groups[0]?).map ProxyGroup.cursor = some 2 := by
  have h := c1_cursor_preserved liveT1 incT1 [] 0 (by decide)
  exact h

/-- C2 counterexample: two single-group trees with identical content over
name, type, members and current but different group cursors.  The spec's
cursor-excluding comparison holds, yet the derived hash — which covers every
field, `cursor` included — differs, so the merge does not return via the
hash short-circuit. -/
theorem c2_counterexample :
    contentEq selfT2.groups otherT2.groups ∧
      get_hash selfT2.groups ≠ get_hash otherT2.groups := by
  constructor
  · decide
  · decide

/-- C2 (amended): when live and incoming groups are pairwise identical over
name, type, members and current (cursors may differ) and the live names are
unique, the merge leaves the live tree — tree cursor, expansion flag and
every group — completely unchanged; but the mechanism is the per-group
replacement preserving the live cursor, because the hash includes `cursor`
and short-circuits only on full equality. -/
theorem c2_content_merge_noop (self other : ProxyTree) (σ : List ProxyGroup)
    (hN : (self.groups.map fun g => g.name).Nodup)
    (hc : contentEq self.groups other.groups)
    (hv : validOrder self other σ) :
    mergeWith self other σ = self := by
  have hnames := contentEq_names _ _ hc
  have hnil := buildMap_filter_nil_of_sub self other (by
    intro g hg
    rw [hnames]
    exact List.mem_map_of_mem _ hg)
  have hσ : σ = [] := by
    have h2 := hv
    rw [validOrder, leftoverMap, mergeLoop_snd, hnil] at h2
    simpa using h2.eq_nil
  subst hσ
  rw [mergeWith]
  by_cases hh : get_hash self.groups = get_hash other.groups
  · rw [if_pos hh]
  · rw [if_neg hh]
    have hcong : ∀ g ∈ self.groups, mergedGroup (buildMap other.groups) g = g := by
      intro g hg
      have hfl_self : findLast self.groups g.name = some g :=
        findLast_self_of_nodup self.groups hN g hg
      have hfl := contentEq_findLast self.groups other.groups hc g.name
      rw [hfl_self] at hfl
      cases hfo : findLast other.groups g.name with
      | none => rw [hfo] at hfl; simp at hfl
      | some og =>
        rw [hfo] at hfl
        simp only [Option.map] at hfl
        have hgc : groupContent og = groupContent g := by
          injection hfl with h1
          exact h1.symm
        simp only [mergedGroup, lookupEntry_buildMap, hfo]
        by_cases hgo : get_hash g = get_hash og
        · rw [if_pos hgo]
        · rw [if_neg hgo]
          exact groupContent_cursor_ext og g hgc
    have hmap : (mergeLoop self.groups (buildMap other.groups)).1 = self.groups := by
      rw [mergeLoop_fst self.groups hN]
      have h3 : self.groups.map (mergedGroup (buildMap other.groups)) =
          self.groups.map (fun g => g) := List.map_congr_left hcong
      simpa using h3
    rw [hmap, List.append_nil]

/-- C2 witness: the concrete content-equal pair with differing cursors,
merged — the live tree is returned unchanged. -/
theorem c2_witness :
    contentEq selfT2.groups otherT2.groups ∧
      mergeWith selfT2 otherT2 [] = selfT2 :=
  ⟨by decide,
   c2_content_merge_noop selfT2 otherT2 [] (by decide) (by decide) (by decide)⟩

/-- C3 (confirmed): for every live group with a same-named incoming group
(the last such occurrence, which is what the `HashMap` retains), the merge
result at that position is exactly the incoming group's content with the
live group's cursor — which is the live group itself when the content
(including cursor after the copy) coincides, i.e. unchanged content leaves
the group untouched and changed content replaces everything but `cursor`. -/
theorem c3_matched_group (self other : ProxyTree) (σ : List ProxyGroup)
    (hN : (self.groups.map fun g => g.name).Nodup)
    (i : Nat) (hi : i < self.groups.length) (og : ProxyGroup)
    (hog : findLast other.groups ((self.groups.get ⟨i, hi⟩).name) = some og) :
    (mergeWith self other σ).groups[i]? =
      some { og with cursor := (self.groups.get ⟨i, hi⟩).cursor } := by
  rw [mergeWith_groups_getElem? self other σ hN i hi]
  simp only [mergedGroup, lookupEntry_buildMap, hog]
  by_cases hgo : get_hash (self.groups.get ⟨i, hi⟩) = get_hash og
  · rw [if_pos hgo]
    have hgeq : self.groups.get ⟨i, hi⟩ = og := hgo
    rw [hgeq]
  · rw [if_neg hgo]

/-- C3 witness: group "A" at cursor 2 gains a fourth member; after the merge
it has the incoming content and cursor 2 (no reset to 0). -/
theorem c3_witness :
    (mergeWith liveT3 incT3 []).groups[0]? =
      some { name := "A", proxy_type := .Selector,
             members := [itA1, itA2, itA3, itA4], current := some 1,
             cursor := 2 } := by
  have h := c3_matched_group liveT3 incT3 [] (by decide) 0 (by decide)
    { name := "A", proxy_type := .Selector, members := [itA1, itA2, itA3, itA4],
      current := some 1, cursor := 0 } (by decide)
  exact h

/-- C4 counterexample: `merge` drains the leftover `HashMap` with
`into_iter`, whose order is unspecified.  Draining the two new groups "B1",
"B2" in reversed order is an admissible execution (a permutation of the
leftover content) and appends them as B2, B1 — not "in the order encountered
in the incoming tree" as claimed. -/
theorem c4_counterexample :
    validOrder liveC4 incC4 [gB2, gB1] ∧
      ((mergeWith liveC4 incC4 [gB2, gB1]).groups.map fun g => g.name) =
        ["A", "B2", "B1"] := by
  constructor
  · decide
  · decide

/-- C4 (amended): for every admissible drain order, incoming groups matched
to no live name are appended after the live groups — as a permutation of the
unmatched (last-occurrence) incoming groups, in an unspecified order — and
every live group whose name does not occur in the incoming tree stays at its
position unchanged; no group is ever removed (the length only grows). -/
theorem c4_appended_retained (self other : ProxyTree) (σ : List ProxyGroup)
    (hN : (self.groups.map fun g => g.name).Nodup)
    (hv : validOrder self other σ) :
    (∀ (i : Nat) (hi : i < self.groups.length),
        findLast other.groups ((self.groups.get ⟨i, hi⟩).name) = none →
        (mergeWith self other σ).groups[i]? = some (self.groups.get ⟨i, hi⟩)) ∧
      (mergeWith self other σ).groups.length =
        self.groups.length +
          ((buildMap other.groups).filter (keyAbsent self.groups)).length ∧
      ((mergeWith self other σ).groups.drop self.groups.length).Perm
        (((buildMap other.groups).filter (keyAbsent self.groups)).map Prod.snd) := by
  refine ⟨?_, mergeWith_groups_length self other σ hv,
    mergeWith_groups_drop self other σ hv⟩
  intro i hi hnone
  rw [mergeWith_groups_getElem? self other σ hN i hi]
  simp only [mergedGroup, lookupEntry_buildMap, hnone]

/-- C4 witness: merging a snapshot with new groups "B1", "B2" and without
the live group "A": the appended tail is a permutation of the unmatched
groups, and "A" stays present unchanged. -/
theorem c4_witness :
    ((mergeWith liveC4 incC4 [gB1, gB2]).groups.drop liveC4.groups.length).Perm
      (((buildMap incC4.groups).filter (keyAbsent liveC4.groups)).map Prod.snd) := by
  exact (c4_appended_retained liveC4 incC4 [gB1, gB2] (by decide) (by decide)).2.2

/-- C10 (confirmed): when the incoming tree contains several groups with the
same name, only the last occurrence survives the `HashMap` construction:
every appended group is the last same-named incoming group, and a matched
live group is updated from the last same-named incoming occurrence. -/
theorem c10_duplicate_names (self other : ProxyTree) (σ : List ProxyGroup)
    (hN : (self.groups.map fun g => g.name).Nodup)
    (hv : validOrder self other σ) :
    (∀ g ∈ (mergeWith self other σ).groups.drop self.groups.length,
        findLast other.groups g.name = some g) ∧
      (∀ (i : Nat) (hi : i < self.groups.length) (og : ProxyGroup),
        findLast other.groups ((self.groups.get ⟨i, hi⟩).name) = some og →
        (mergeWith self other σ).groups[i]? =
          some (if self.groups.get ⟨i, hi⟩ = og then self.groups.get ⟨i, hi⟩
                else { og with cursor := (self.groups.get ⟨i, hi⟩).cursor })) := by
  constructor
  · intro g hg
    have hperm := mergeWith_groups_drop self other σ hv
    have hmem : g ∈ ((buildMap other.groups).filter (keyAbsent self.groups)).map
        Prod.snd := hperm.mem_iff.mp hg
    obtain ⟨e, he, rfl⟩ := List.mem_map.mp hmem
    have hef : e ∈ buildMap other.groups := List.mem_of_mem_filter he
    have hfl := mem_buildMap_findLast other.groups e hef
    obtain ⟨_, hname⟩ := findLast_mem other.groups e.1 e.2 hfl
    exact hname ▸ hfl
  · intro i hi og hog
    rw [mergeWith_groups_getElem? self other σ hN i hi]
    simp only [mergedGroup, lookupEntry_buildMap, hog, get_hash]

/-- C10 witness: the incoming tree has two groups named "D"; matching uses
the second (last) one — preserving the live cursor 7 — and an appended "D"
is the last occurrence. -/
theorem c10_witness :
    (mergeWith liveC10 incC10 []).groups[0]? = some { gD2 with cursor := 7 } ∧
      findLast incC10.groups gD2.name = some gD2 := by
  constructor
  · have h := (c10_duplicate_names liveC10 incC10 [] (by decide) (by decide)).2
      0 (by decide) gD2 (by decide)
    exact h.trans (by decide)
  · exact (c10_duplicate_names emptyLive incC10 [gD2] (by decide) (by decide)).1
      gD2 (by decide)

/-- C5: the claim that rendering never fails is contradicted by the code: at
viewport width 0 (generally, whenever `(width − indicator_width − 2)/2`
saturates to 0) the non-expanded branch of `ProxyGroup::get_widget` calls
`slice::chunks(0)`, which panics — here the modelled error value — instead
of clamping. -/
theorem c5_chunk_panic :
    renderText C0 narrowT 0 5 = Except.error "chunk size must be non-zero" := by
  rfl

/-- C6 (confirmed): the latency buckets of `get_delay_style` are exactly
0 / 1–200 / 201–400 / 401+, and the expanded-row latency cell renders a
positive delay numerically in its bucket style, the fixed no-latency glyph
for a zero delay or for an absent sample on a terminal/normal member, and an
empty cell for an absent sample on a non-normal member. -/
theorem c6_latency_buckets (C : Consts) :
    (get_delay_style C 0 = C.NO_LATENCY_STYLE) ∧
    (∀ d : Nat, 1 ≤ d → d ≤ 200 → get_delay_style C d = C.LOW_LATENCY_STYLE) ∧
    (∀ d : Nat, 201 ≤ d → d ≤ 400 → get_delay_style C d = C.MID_LATENCY_STYLE) ∧
    (∀ d : Nat, 401 ≤ d → get_delay_style C d = C.HIGH_LATENCY_STYLE) ∧
    (∀ (x : ProxyItem) (h : History), x.history = some h → 0 < h.delay →
      delay_span C x = Span.styled (toString h.delay) (get_delay_style C h.delay)) ∧
    (∀ x : ProxyItem, x.history = some ⟨0⟩ →
      delay_span C x = Span.styled C.NO_LATENCY_SIGN C.NO_LATENCY_STYLE) ∧
    (∀ x : ProxyItem, x.history = none → x.proxy_type.is_normal = true →
      delay_span C x = Span.styled C.NO_LATENCY_SIGN C.NO_LATENCY_STYLE) ∧
    (∀ x : ProxyItem, x.history = none → x.proxy_type.is_normal = false →
      delay_span C x = Span.raw "") := by
  refine ⟨rfl, ?_, ?_, ?_, ?_, ?_, ?_, ?_⟩
  · intro d h1 h2
    rw [get_delay_style, if_neg (by omega), if_pos (by omega)]
  · intro d h1 h2
    rw [get_delay_style, if_neg (by omega), if_neg (by omega), if_pos (by omega)]
  · intro d h1
    rw [get_delay_style, if_neg (by omega), if_neg (by omega), if_neg (by omega)]
  · intro x h hx hpos
    simp [delay_span, hx, hpos]
  · intro x hx
    simp [delay_span, hx]
  · intro x hx hn
    simp [delay_span, hx, hn]
  · intro x hx hn
    simp [delay_span, hx, hn]

/-- C6 witness: the spec's example delays — 150 low, 300 mid, 500 high,
delay-500 member rendered numerically, sample-less normal member rendered as
the no-latency glyph, sample-less nested group rendered empty. -/
theorem c6_witness :
    get_delay_style C0 150 = C0.LOW_LATENCY_STYLE ∧
    get_delay_style C0 300 = C0.MID_LATENCY_STYLE ∧
    get_delay_style C0 500 = C0.HIGH_LATENCY_STYLE ∧
    delay_span C0 itA4 = Span.styled "500" (get_delay_style C0 500) ∧
    delay_span C0 itA1 = Span.styled C0.NO_LATENCY_SIGN C0.NO_LATENCY_STYLE ∧
    delay_span C0 itNested = Span.raw "" := by
  refine ⟨(c6_latency_buckets C0).2.1 150 (by decide) (by decide),
    (c6_latency_buckets C0).2.2.1 300 (by decide) (by decide),
    (c6_latency_buckets C0).2.2.2.1 500 (by decide),
    ?_, ?_, ?_⟩
  · exact (c6_latency_buckets C0).2.2.2.2.1 itA4 ⟨500⟩ (by decide) (by decide)
  · exact (c6_latency_buckets C0).2.2.2.2.2.2.1 itA1 (by decide) (by decide)
  · exact (c6_latency_buckets C0).2.2.2.2.2.2.2 itNested (by decide) (by decide)

/-- C7 (confirmed): the scroll offsets match the spec formulas — expanded
mode skips exactly `cursor` groups, collapsed mode skips `max(0, cursor−2)`
groups (this is what the saturating subtraction computes), and the expanded
group's visible member window starts at `max(0, cursor−4)`; the expanded
widget is exactly the header followed by the rows of the members from
`memberSkip cursor` on. -/
theorem c7_windowing :
    (∀ c : Nat, ((treeSkip true c : Int) = (c : Int)) ∧
        ((treeSkip false c : Int) = max 0 ((c : Int) - 2)) ∧
        ((memberSkip c : Int) = max 0 ((c : Int) - 4))) ∧
    (∀ (C : Consts) (g : ProxyGroup) (w : Nat),
        get_widget C g w .Expanded =
          Except.ok (groupHeader C g .Expanded ::
            ((g.members.drop (memberSkip g.cursor)).enum).map fun p =>
              expandedRow C g (memberSkip g.cursor) p.1 p.2)) := by
  constructor
  · intro c
    refine ⟨by simp [treeSkip], ?_, ?_⟩
    · rw [show treeSkip false c = c - 2 from rfl]
      omega
    · simp only [memberSkip]
      omega
  · intro C g w
    rfl

/-- C8 (confirmed): snapshot conversion succeeds exactly when every member
name resolves and every present `now` names a member; on success each
group's `cursor` is `current.unwrap_or_default()` and `current` is the index
of the member named by `now` (or `None`); a conversion error leaves the live
tree unchanged. -/
theorem c8_conversion (ps : Proxies) :
    ((∃ t, fromProxies ps = Except.ok t) ↔ saneProxies ps) ∧
    (∀ t, fromProxies ps = Except.ok t → ∀ g ∈ t.groups,
        g.cursor = g.current.getD 0 ∧
        ∃ p ∈ ps.groups, p.1 = g.name ∧
          (p.2.now = none → g.current = none) ∧
          (∀ n, p.2.now = some n → ∃ i, g.current = some i ∧
            ∃ hi : i < g.members.length, (g.members.get ⟨i, hi⟩).name = n)) ∧
    (∀ (live : ProxyTree) (σ : List ProxyGroup) (e : String),
        fromProxies ps = Except.error e → refresh live ps σ = live) := by
  refine ⟨fromProxies_ok_iff ps, ?_, ?_⟩
  · intro t ht g hg
    obtain ⟨p, hp, hcg⟩ := fromProxies_mem ps t ht g hg
    obtain ⟨hname, hcursor, hnone, hsome⟩ := convertGroup_fields ps p.1 p.2 g hcg
    exact ⟨hcursor, p, hp, hname.symm, hnone, hsome⟩
  · intro live σ e he
    unfold refresh
    rw [he]

/-- C8 witness: the end-to-end snapshot of spec §8 converts successfully
(current = cursor = 1 on the single group), and the malformed snapshot with
an unresolvable member leaves the live tree untouched through `refresh`. -/
theorem c8_witness :
    ((∃ t, fromProxies ps0 = Except.ok t) ↔ saneProxies ps0) ∧
    gP.cursor = gP.current.getD 0 ∧
    refresh liveT1 psBad [] = liveT1 := by
  refine ⟨(c8_conversion ps0).1, ?_, ?_⟩
  · exact ((c8_conversion ps0).2.1 t0 (by rfl) gP (by decide)).1
  · exact (c8_conversion psBad).2.2 liveT1 []
      "Group member should be in all proxies" (by rfl)

/-- C9 (confirmed): rendering a tree with zero groups is total and produces
the empty row sequence for every viewport and every cursor/expansion
state. -/
theorem c9_empty_tree (C : Consts) (e : Bool) (c w h : Nat) :
    renderText C { groups := [], expanded := e, cursor := c } w h =
      Except.ok [] := by
  unfold renderText
  simp [mapE]

end Clashctl

